import Mathlib

/-!
Verification of the fuzzy tune-name matching core of the skronk-and-skreigh
repository (fuzzy_match.py, local_file_search.py, local_file_search_async.py,
thesession_data.py, type_aware_scoring.py).

Strings are modelled as `List Char`; scores as `Rat` (Python floats are
modelled by exact rationals).  File paths are modelled as absolute path
strings, so `Path.absolute()` is the identity.  The filesystem scan
(`find_audio_files`) is I/O; it is modelled by an explicit function from a
directory path to the list of audio-file paths the scan returns.
-/

namespace SkronkSpec

/-- The ASCII apostrophe character (codepoint 39). -/
def aposChar : Char := Char.ofNat 39

/-- The ASCII backtick character (codepoint 96). -/
def backtickChar : Char := Char.ofNat 96

/-- Python `str.lower`, modelled on ASCII letters (the repository's data is
ASCII tune names). -/
def pyLower (c : Char) : Char :=
  if 65 ≤ c.toNat ∧ c.toNat ≤ 90 then Char.ofNat (c.toNat + 32) else c

/-- The whitespace class of Python's `str.strip` and the regex `\s`,
restricted to ASCII. -/
def isPySpace (c : Char) : Bool :=
  c = ' ' || c = '\t' || c = '\n' || c = '\x0b' || c = '\x0c' || c = '\r'

/-- The character class of `re.sub(r"[<apostrophes>]", '', name)` in
`normalize_tune_name` (fuzzy_match.py line 24).  In the source file the class
consists of the ASCII apostrophe (three times) and a backtick. -/
def isApostrophe (c : Char) : Bool :=
  c = aposChar || c = backtickChar

/-- The punctuation class of `re.sub(r'[,\.\!\?;:]', '', name)`. -/
def isPunct (c : Char) : Bool :=
  c = ',' || c = '.' || c = '!' || c = '?' || c = ';' || c = ':'

/-- The class of `re.sub(r'[-_]', ' ', name)`. -/
def isHyphen (c : Char) : Bool :=
  c = '-' || c = '_'

/-- Python `str.strip()`: drop leading and trailing whitespace. -/
def pyStrip (s : List Char) : List Char :=
  ((s.dropWhile isPySpace).reverse.dropWhile isPySpace).reverse

/-- Worker for `collapseWs`: the flag records whether the previous character
belonged to a whitespace run that has already emitted its single space. -/
def collapseWsAux : Bool → List Char → List Char
  | _, [] => []
  | prevSpace, c :: cs =>
    if isPySpace c then
      if prevSpace then collapseWsAux true cs
      else ' ' :: collapseWsAux true cs
    else c :: collapseWsAux false cs

/-- The regex substitution `re.sub(r'\s+', ' ', s)`: replace every maximal
run of whitespace by one space. -/
def collapseWs (s : List Char) : List Char :=
  collapseWsAux false s

/-- `normalize_tune_name` (fuzzy_match.py lines 12-34): lowercase and strip,
remove apostrophes, remove punctuation, map hyphens/underscores to spaces,
collapse whitespace, and rotate a leading "the " to a trailing ", the". -/
def normalize_tune_name (s : List Char) : List Char :=
  let n1 := pyStrip (s.map pyLower)
  let n2 := n1.filter (fun c => !isApostrophe c)
  let n3 := n2.filter (fun c => !isPunct c)
  let n4 := n3.map (fun c => if isHyphen c then ' ' else c)
  let n5 := collapseWs n4
  if "the ".data.isPrefixOf n5 then (n5.drop 4) ++ ", the".data else n5

/-!
`difflib.SequenceMatcher` (CPython), as used by `calculate_similarity`:
`SequenceMatcher(None, norm1, norm2).ratio()`.  With `isjunk = None` the
junk set is empty, so only the two non-junk extension loops of
`find_longest_match` can fire; the autojunk heuristic (elements too popular
in `b` when `len(b) >= 200`) removes entries from `b2j`.
-/

/-- The positions of `c` in `b`, in increasing order (difflib's `b2j`
before junk/popular purging). -/
def indicesOf (b : List Char) (c : Char) : List Nat :=
  (List.range b.length).filter (fun j => b[j]? = some c)

/-- difflib's autojunk rule: with `n = len(b) >= 200`, an element is
popular (and removed from `b2j`) when its index count exceeds
`n / 100 + 1`. -/
def isPopular (b : List Char) (c : Char) : Bool :=
  decide (200 ≤ b.length) && decide (b.length / 100 + 1 < b.count c)

/-- difflib's `b2j` map after purging popular elements. -/
def b2jOf (b : List Char) (c : Char) : List Nat :=
  if isPopular b c then [] else indicesOf b c

/-- Lookup in the `j2len` dict, defaulting to 0 (`j2len.get(j-1, 0)`). -/
def lookupJ (m : List (Nat × Nat)) (j : Nat) : Nat :=
  match m.find? (fun p => p.1 == j) with
  | some p => p.2
  | none => 0

/-- Inner loop of `find_longest_match` over the `b`-indices of `a[i]`:
builds `newj2len` and updates the best block `(besti, bestj, bestsize)`
when a strictly longer diagonal run is found. -/
def processJs (j2len : List (Nat × Nat)) (i : Nat) :
    List Nat → List (Nat × Nat) → Nat × Nat × Nat → List (Nat × Nat) × (Nat × Nat × Nat)
  | [], acc, best => (acc, best)
  | j :: js, acc, best =>
    let k := (if j = 0 then 0 else lookupJ j2len (j - 1)) + 1
    let best' := if best.2.2 < k then (i + 1 - k, j + 1 - k, k) else best
    processJs j2len i js ((j, k) :: acc) best'

/-- Outer loop of `find_longest_match` over `i ∈ [alo, ahi)`. -/
def flmLoop (bj : Char → List Nat) (a : List Char) (blo bhi : Nat) :
    List Nat → List (Nat × Nat) → Nat × Nat × Nat → Nat × Nat × Nat
  | [], _, best => best
  | i :: is, j2len, best =>
    let js := (bj (a.getD i default)).filter (fun j => decide (blo ≤ j) && decide (j < bhi))
    let r := processJs j2len i js [] best
    flmLoop bj a blo bhi is r.1 r.2

/-- Do `a` and `b` hold equal characters at positions `i` and `j`?  False
when either index is out of range. -/
def charEq (a b : List Char) (i j : Nat) : Bool :=
  match a[i]?, b[j]? with
  | some x, some y => x == y
  | _, _ => false

/-- The first (backward, non-junk) extension loop of `find_longest_match`;
the junk set is empty since `isjunk = None`, so the junk loops never fire.
Structural recursion on `besti`. -/
def extendBack (a b : List Char) (alo blo : Nat) : Nat → Nat → Nat → Nat × Nat × Nat
  | 0, bj, bs => (0, bj, bs)
  | bi + 1, bj, bs =>
    if alo ≤ bi ∧ blo < bj ∧ charEq a b bi (bj - 1) then
      extendBack a b alo blo bi (bj - 1) (bs + 1)
    else (bi + 1, bj, bs)

/-- The second (forward, non-junk) extension loop of `find_longest_match`,
with explicit fuel (`ahi` steps always suffice). -/
def extendFwd (a b : List Char) (ahi bhi bi bj : Nat) : Nat → Nat → Nat
  | 0, bs => bs
  | fuel + 1, bs =>
    if bi + bs < ahi ∧ bj + bs < bhi ∧ charEq a b (bi + bs) (bj + bs) then
      extendFwd a b ahi bhi bi bj fuel (bs + 1)
    else bs

/-- `SequenceMatcher.find_longest_match(alo, ahi, blo, bhi)`. -/
def findLongestMatch (a b : List Char) (alo ahi blo bhi : Nat) : Nat × Nat × Nat :=
  let best := flmLoop (b2jOf b) a blo bhi (List.range' alo (ahi - alo)) [] (alo, blo, 0)
  let best2 := extendBack a b alo blo best.1 best.2.1 best.2.2
  let k := extendFwd a b ahi bhi best2.1 best2.2.1 ahi best2.2.2
  (best2.1, best2.2.1, k)

/-- Total size of all matching blocks (`sum(size for _, _, size in
get_matching_blocks())`), written as the recursion of the block-finding
queue with explicit fuel; `len(a) + len(b) + 1` levels always suffice. -/
def matchesTotalAux (a b : List Char) : Nat → Nat → Nat → Nat → Nat → Nat
  | 0, _, _, _, _ => 0
  | fuel + 1, alo, ahi, blo, bhi =>
    let r := findLongestMatch a b alo ahi blo bhi
    if r.2.2 = 0 then 0
    else
      r.2.2 + matchesTotalAux a b fuel alo r.1 blo r.2.1 +
        matchesTotalAux a b fuel (r.1 + r.2.2) ahi (r.2.1 + r.2.2) bhi

/-- Total matched characters between `a` and `b`. -/
def matchesTotal (a b : List Char) : Nat :=
  matchesTotalAux a b (a.length + b.length + 1) 0 a.length 0 b.length

/-- `SequenceMatcher.ratio()`: `2 * M / (len(a) + len(b))`, and 1.0 when
both strings are empty.  The quotient is written with `mkRat`, which builds
exactly the rational number `2 * M / (len(a) + len(b))`. -/
def ratioVal (a b : List Char) : Rat :=
  if a.length + b.length = 0 then 1
  else mkRat (2 * (matchesTotal a b : Int)) (a.length + b.length)

/-- `calculate_similarity` (fuzzy_match.py lines 37-50): 1.0 on equal
normalized forms, otherwise the SequenceMatcher ratio of the normalized
forms. -/
def calculate_similarity (str1 str2 : List Char) : Rat :=
  let norm1 := normalize_tune_name str1
  let norm2 := normalize_tune_name str2
  if norm1 = norm2 then 1 else ratioVal norm1 norm2

/-!  `fuzzy_match_tune` (fuzzy_match.py lines 53-84). -/

/-- Stable insertion for descending sort: an element is placed before the
first entry whose key is not larger, so equal keys keep encounter order.
This is the semantics of Python's stable `list.sort(key=..., reverse=True)`. -/
def insertDesc (key : α → Rat) (x : α) : List α → List α
  | [] => [x]
  | y :: ys => if key x < key y then y :: insertDesc key x ys else x :: y :: ys

/-- Stable descending sort by a key (`matches.sort(key=lambda x: x[1],
reverse=True)`). -/
def pySortDescBy (key : α → Rat) : List α → List α
  | [] => []
  | x :: xs => insertDesc key x (pySortDescBy key xs)

/-- Python's `if max_results: matches = matches[:max_results]`: both `None`
and `0` are falsy, so truncation happens only for a positive cap. -/
def pyTruncate (max_results : Option Nat) (l : List α) : List α :=
  match max_results with
  | some (n + 1) => l.take (n + 1)
  | _ => l

/-- The pre-sort match list of `fuzzy_match_tune`: each candidate scored by
`calculate_similarity`, kept when the score reaches the threshold, in
candidate order. -/
def fmtMatches (target : List Char) (candidates : List (List Char)) (threshold : Rat) :
    List (List Char × Rat) :=
  (candidates.map (fun c => (c, calculate_similarity target c))).filter
    (fun p => threshold ≤ p.2)

/-- `fuzzy_match_tune` (fuzzy_match.py lines 53-84): filter by threshold,
sort descending by score, optionally truncate. -/
def fuzzy_match_tune (target : List Char) (candidates : List (List Char))
    (threshold : Rat) (max_results : Option Nat) : List (List Char × Rat) :=
  pyTruncate max_results (pySortDescBy (fun p => p.2) (fmtMatches target candidates threshold))

/-!  `find_common_variations` (fuzzy_match.py lines 94-134). -/

/-- Substring test (Python's `x in s`); an empty needle is always found. -/
def isInfixCL (needle : List Char) : List Char → Bool
  | [] => needle.isEmpty
  | c :: cs => needle.isPrefixOf (c :: cs) || isInfixCL needle cs

/-- Worker for `pyReplace`, with explicit fuel (the length of broken-down
input always suffices). -/
def pyReplaceAux (o : Char) (os new : List Char) : Nat → List Char → List Char
  | 0, s => s
  | _, [] => []
  | fuel + 1, c :: cs =>
    if (o :: os).isPrefixOf (c :: cs) then new ++ pyReplaceAux o os new fuel (cs.drop os.length)
    else c :: pyReplaceAux o os new fuel cs

/-- Python `str.replace(old, new)`: replace all non-overlapping occurrences
left to right.  Never called with an empty `old` in the embedded code. -/
def pyReplace (s old new : List Char) : List Char :=
  match old with
  | [] => s
  | o :: os => pyReplaceAux o os new s.length s

/-- The fixed `replacements` table of `find_common_variations`, each row
paired with its `.title()`-cased form: `('&','and')`, `('and','&')`,
`("'s",'s')`, `('s',"'s")`, whose title-cased forms are `('&','And')`,
`('And','&')`, `("'S",'S')`, `('S',"'S")`. -/
def replacementsTbl : List ((List Char × List Char) × (List Char × List Char)) :=
  [ (("&".data, "and".data), ("&".data, "And".data)),
    (("and".data, "&".data), ("And".data, "&".data)),
    (([aposChar, 's'], "s".data), ([aposChar, 'S'], "S".data)),
    (("s".data, [aposChar, 's']), ("S".data, [aposChar, 'S'])) ]

/-- The case-insensitive order-preserving deduplication at the end of
`find_common_variations` (a `seen` set of lowercased forms). -/
def dedupByLowerAux : List (List Char) → List (List Char) → List (List Char)
  | _, [] => []
  | seen, v :: vs =>
    let vl := v.map pyLower
    if vl ∈ seen then dedupByLowerAux seen vs
    else v :: dedupByLowerAux (vl :: seen) vs

/-- `find_common_variations` (fuzzy_match.py lines 94-134). -/
def find_common_variations (tune_name : List Char) : List (List Char) :=
  let lower := tune_name.map pyLower
  let v1 := [tune_name, normalize_tune_name tune_name]
  let v2 := if "the ".data.isPrefixOf lower then v1 ++ [tune_name.drop 4] else v1
  let v3 := if !("the ".data.isPrefixOf lower) then v2 ++ ["The ".data ++ tune_name] else v2
  let v4 := replacementsTbl.foldl (fun acc r =>
    if isInfixCL r.1.1 lower then
      acc ++ [pyReplace tune_name r.1.1 r.1.2, pyReplace tune_name r.2.1 r.2.2]
    else acc) v3
  dedupByLowerAux [] v4

/-!  `thesession_data.py`: alias resolution.  The external aliases.csv
dataset is modelled by the loaded `aliases_map` dictionary: a list of
(lowercased-stripped key, alias list) pairs with distinct keys; a missing
or unreadable dataset is the empty map (`load_aliases_data` returns `{}`). -/

/-- The loaded alias dictionary. -/
abbrev AliasMap := List (List Char × List (List Char))

/-- Dictionary lookup `key in aliases_map` / `aliases_map[key]`. -/
def lookupAlias (m : AliasMap) (key : List Char) : Option (List (List Char)) :=
  (m.find? (fun p => p.1 == key)).map (fun p => p.2)

/-- `get_tune_aliases` (thesession_data.py lines 127-150): look up the
lowercased, stripped name; append the original name if missing from the
stored alias list; fall back to the singleton of the original name. -/
def get_tune_aliases (m : AliasMap) (tune_name : List Char) : List (List Char) :=
  let key := pyStrip (tune_name.map pyLower)
  match lookupAlias m key with
  | some aliases => if tune_name ∈ aliases then aliases else aliases ++ [tune_name]
  | none => [tune_name]

/-- Worker for `dedupKeepFirst`, carrying the `seen` set. -/
def dedupKeepFirstAux : List (List Char) → List (List Char) → List (List Char)
  | _, [] => []
  | seen, v :: vs =>
    if v ∈ seen then dedupKeepFirstAux seen vs
    else v :: dedupKeepFirstAux (v :: seen) vs

/-- Order-preserving first-occurrence deduplication; models both the
Python `set` used by `get_all_tune_variations` (only membership in the
result is consumed downstream, via a maximum over the collection) and the
`seen_paths` set deduplication of the scanned file list. -/
def dedupKeepFirst (l : List (List Char)) : List (List Char) :=
  dedupKeepFirstAux [] l

/-- `get_all_tune_variations` (thesession_data.py lines 153-170): the
aliases of the name together with the common variations of every alias. -/
def get_all_tune_variations (m : AliasMap) (tune_name : List Char) : List (List Char) :=
  let aliases := get_tune_aliases m tune_name
  dedupKeepFirst (aliases ++ aliases.flatMap find_common_variations)

/-!  `local_file_search.py`.  `find_audio_files` is a directory walk; it is
modelled by a function `fs` from a directory path to the list of audio file
paths the walk returns.  Paths are modelled as absolute path strings, so
`Path.absolute()` is the identity and deduplication is on the path itself. -/

/-- The index of the last occurrence of `c` in `l` (Python `str.rfind`). -/
def lastIndexOf (l : List Char) (c : Char) : Option Nat :=
  ((List.range l.length).filter (fun i => l[i]? = some c)).getLast?

/-- `Path.name`: the component after the last slash. -/
def pathName (p : List Char) : List Char :=
  (p.reverse.takeWhile (fun c => c ≠ '/')).reverse

/-- `Path.stem`: the name without its suffix; pathlib drops from the last
dot only when that dot is neither the first nor the last character of the
name. -/
def pathStem (p : List Char) : List Char :=
  let n := pathName p
  match lastIndexOf n '.' with
  | some i => if 0 < i ∧ i + 1 < n.length then n.take i else n
  | none => n

/-- The regex substitution `re.sub(r'^\d+[-_\s]*', '', name)`: when the
name starts with a digit, drop the leading digit run and the following
hyphens/underscores/whitespace. -/
def stripLeadingDigits (s : List Char) : List Char :=
  match s with
  | [] => []
  | c :: _ =>
    if c.isDigit then
      (s.dropWhile (fun d => d.isDigit)).dropWhile (fun d => isHyphen d || isPySpace d)
    else s

/-- `extract_tune_name_from_path` (local_file_search.py lines 49-63). -/
def extract_tune_name_from_path (p : List Char) : List Char :=
  let name := pathStem p
  let n1 := stripLeadingDigits name
  let n2 := n1.map (fun c => if isHyphen c then ' ' else c)
  pyStrip (collapseWs n2)

/-- Worker for `pySplit`, with explicit fuel (the input length plus one
always suffices); `cur` is the current fragment, reversed. -/
def pySplitAux (o : Char) (os : List Char) : Nat → List Char → List Char → List (List Char)
  | 0, cur, s => [cur.reverse ++ s]
  | _ + 1, cur, [] => [cur.reverse]
  | fuel + 1, cur, c :: cs =>
    if (o :: os).isPrefixOf (c :: cs) then
      cur.reverse :: pySplitAux o os fuel [] (cs.drop os.length)
    else pySplitAux o os fuel (c :: cur) cs

/-- Python `str.split(sep)` for a non-empty separator: split at each
non-overlapping occurrence, left to right. -/
def pySplit (s sep : List Char) : List (List Char) :=
  match sep with
  | [] => [s]
  | o :: os => pySplitAux o os (s.length + 1) [] s

/-- The separator tokens of `is_tune_in_composite_name`, in source order. -/
def separators : List (List Char) :=
  [" _ ".data, " / ".data, " - ".data, ", ".data, " & ".data, " and ".data]

/-- The fragment list of `is_tune_in_composite_name`: the full cartesian
split of the composite name on every separator, fragments stripped and
empty fragments discarded. -/
def splitParts (composite_name : List Char) : List (List Char) :=
  let parts := separators.foldl (fun ps sep => ps.flatMap (fun p => pySplit p sep)) [composite_name]
  (parts.map pyStrip).filter (fun p => !p.isEmpty)

/-- `is_tune_in_composite_name` (local_file_search.py lines 66-95). -/
def is_tune_in_composite_name (tune_name composite_name : List Char) (threshold : Rat) : Bool :=
  if isInfixCL (tune_name.map pyLower) (composite_name.map pyLower) then true
  else (splitParts composite_name).any (fun p => threshold ≤ calculate_similarity tune_name p)

/-- One iteration of the per-file scoring loop of `search_local_files`
(lines 150-163): fold the direct fuzzy score of one search term (via
`fuzzy_match_tune` on the one-element candidate list with threshold 0) and
the capped 0.9 composite-containment score into the running best. -/
def bestScoreStep (extracted_name : List Char) (threshold : Rat) (best : Rat)
    (term : List Char) : Rat :=
  let results := fuzzy_match_tune term [extracted_name] 0 none
  let best := match results with
    | r :: _ => max best r.2
    | [] => best
  if is_tune_in_composite_name term extracted_name threshold then max best (mkRat 9 10)
  else best

/-- The per-file scoring loop of `search_local_files` (lines 147-163): the
best over all search terms, starting from 0. -/
def bestScore (search_terms : List (List Char)) (extracted_name : List Char) (threshold : Rat) : Rat :=
  search_terms.foldl (bestScoreStep extracted_name threshold) 0

/-- One step of the `unique_matches` dict build (lines 169-173): insert a
scored path, overwriting in place when the path is present with a strictly
lower score. -/
def updateMax : List (List Char × Rat) → List Char × Rat → List (List Char × Rat)
  | [], kv => [kv]
  | p :: ps, kv =>
    if p.1 = kv.1 then (if p.2 < kv.2 then kv else p) :: ps
    else p :: updateMax ps kv

/-- The path deduplication of `search_local_files` (lines 168-176): a dict
keyed by absolute path keeping the maximal score, read back in insertion
order. -/
def dedupMaxByPath (ms : List (List Char × Rat)) : List (List Char × Rat) :=
  ms.foldl updateMax []

/-- The search-term selection shared by `search_local_files` (lines
120-125) and `find_tunes_for_set_async` (lines 160-165): alias expansion
when `use_aliases`, otherwise the mechanical variation set alone. -/
def searchTermsOf (m : AliasMap) (use_aliases : Bool) (tune_name : List Char) : List (List Char) :=
  if use_aliases then get_all_tune_variations m tune_name
  else dedupKeepFirst (find_common_variations tune_name)

/-- The pre-sort match list of `search_local_files` (lines 120-176): scan
all directories, deduplicate files, extract a candidate name per file,
score each file by `bestScore`, keep scores at or above the threshold, and
deduplicate by path keeping the maximum. -/
def slfMatches (m : AliasMap) (fs : List Char → List (List Char)) (tune_name : List Char)
    (directories : List (List Char)) (use_aliases : Bool) (threshold : Rat) :
    List (List Char × Rat) :=
  let search_terms := searchTermsOf m use_aliases tune_name
  let all_files := directories.flatMap fs
  let unique_files := dedupKeepFirst all_files
  let file_candidates := unique_files.map (fun f => (f, extract_tune_name_from_path f))
  let ms := file_candidates.filterMap (fun fc =>
    let best := bestScore search_terms fc.2 threshold
    if threshold ≤ best then some (fc.1, best) else none)
  dedupMaxByPath ms

/-- `search_local_files` (local_file_search.py lines 98-184). -/
def search_local_files (m : AliasMap) (fs : List Char → List (List Char)) (tune_name : List Char)
    (directories : List (List Char)) (use_aliases : Bool) (threshold : Rat)
    (max_results : Option Nat) : List (List Char × Rat) :=
  pyTruncate max_results
    (pySortDescBy (fun p => p.2) (slfMatches m fs tune_name directories use_aliases threshold))

/-- Python dict assignment `d[k] = v`: overwrite in place, else append. -/
def dictAssign {β : Type} : List (List Char × β) → List Char × β → List (List Char × β)
  | [], kv => [kv]
  | p :: ps, kv => if p.1 = kv.1 then kv :: ps else p :: dictAssign ps kv

/-- Python dict lookup `d[k]`. -/
def dictLookup {β : Type} : List (List Char × β) → List Char → Option β
  | [], _ => none
  | p :: ps, k => if p.1 = k then some p.2 else dictLookup ps k

/-- `max_results = overload if overload else 1` (local_file_search.py line
211 and local_file_search_async.py line 167): `None` and `0` are falsy. -/
def overloadCap (overload : Option Nat) : Nat :=
  match overload with
  | some (n + 1) => n + 1
  | _ => 1

/-- `find_tunes_for_set` (local_file_search.py lines 187-236): sequential
per-tune search, results collected into a dict keyed by tune name
(`results[tune] = [match[0] for match in matches]`; the empty list when
there are no matches). -/
def find_tunes_for_set (m : AliasMap) (fs : List Char → List (List Char))
    (tunes : List (List Char)) (directories : List (List Char)) (use_aliases : Bool)
    (threshold : Rat) (overload : Option Nat) : List (List Char × List (List Char)) :=
  tunes.foldl (fun results tune =>
    let ms := search_local_files m fs tune directories use_aliases threshold
      (some (overloadCap overload))
    dictAssign results (tune, ms.map (fun p => p.1))) []

/-!  `local_file_search_async.py`.  The process pool evaluates
`search_single_tune` once per tune over a shared pre-scanned candidate
list and collects the results in completion order; completion order is
modelled by an arbitrary permutation of the tune list. -/

/-- `extract_tune_name_from_path_cached` (local_file_search_async.py lines
46-59): same computation as `extract_tune_name_from_path` (the `lru_cache`
only memoizes). -/
def extract_tune_name_from_path_cached (p : List Char) : List Char :=
  let name := pathStem p
  let n1 := stripLeadingDigits name
  let n2 := n1.map (fun c => if isHyphen c then ' ' else c)
  pyStrip (collapseWs n2)

/-- The per-file scoring loop of `search_single_tune` (async lines 80-96),
textually identical to the one in `search_local_files`. -/
def bestScoreAsync (search_terms : List (List Char)) (extracted_name : List Char)
    (threshold : Rat) : Rat :=
  search_terms.foldl (fun best term =>
    let results := fuzzy_match_tune term [extracted_name] 0 none
    let best := match results with
      | r :: _ => max best r.2
      | [] => best
    if is_tune_in_composite_name term extracted_name threshold then max best (mkRat 9 10)
    else best) 0

/-- `search_single_tune` (local_file_search_async.py lines 62-115): one
parallel work unit; `max_results` here is a plain int (always positive as
prepared by the caller), truncating unless zero. -/
def search_single_tune (tune_name : List Char) (search_terms : List (List Char))
    (file_candidates : List (List Char × List Char)) (threshold : Rat) (max_results : Nat) :
    List Char × List (List Char × Rat) :=
  let ms := file_candidates.filterMap (fun fc =>
    let best := bestScoreAsync search_terms fc.2 threshold
    if threshold ≤ best then some (fc.1, best) else none)
  let deduped := dedupMaxByPath ms
  let sorted := pySortDescBy (fun p => p.2) deduped
  (tune_name, if max_results = 0 then sorted else sorted.take max_results)

/-- `find_tunes_for_set_async` (local_file_search_async.py lines 118-197):
pre-scan the directories once, prepare one task per tune, and collect the
per-tune results in completion order.  `completionOrder` is the order in
which the pool completes the tunes — any permutation of `tunes`. -/
def find_tunes_for_set_async (m : AliasMap) (fs : List Char → List (List Char))
    (directories : List (List Char)) (use_aliases : Bool) (threshold : Rat)
    (overload : Option Nat) (completionOrder : List (List Char)) :
    List (List Char × List (List Char)) :=
  let all_files := directories.flatMap fs
  let unique_files := dedupKeepFirst all_files
  let file_candidates := unique_files.map (fun f => (f, extract_tune_name_from_path_cached f))
  completionOrder.foldl (fun results tune =>
    let search_terms := searchTermsOf m use_aliases tune
    let r := search_single_tune tune search_terms file_candidates threshold (overloadCap overload)
    dictAssign results (r.1, r.2.map (fun p => p.1))) []

/-!  `type_aware_scoring.py`. -/

/-- One tune identity as consumed by `score_by_type`: only the `'type'`
field of the TheSession record is read. -/
structure TuneInfo where
  ttype : List Char
deriving DecidableEq

/-- The `type_keywords` table of `score_by_type` (lines 36-47), in source
order. -/
def type_keywords : List (List Char × List (List Char)) :=
  [ ("reel".data, ["reel".data, "reels".data, "120bpm".data, "116bpm".data, "fast".data]),
    ("jig".data, ["jig".data, "jigs".data, "6/8".data]),
    ("slip jig".data, ["slip".data, "slip jig".data, "slip-jig".data, "9/8".data, "hop jig".data]),
    ("slide".data, ["slide".data, "slides".data, "12/8".data]),
    ("hornpipe".data, ["hornpipe".data, "hornpipes".data]),
    ("polka".data, ["polka".data, "polkas".data]),
    ("waltz".data, ["waltz".data, "waltzes".data, "3/4".data]),
    ("mazurka".data, ["mazurka".data, "mazurkas".data]),
    ("barndance".data, ["barndance".data, "barn dance".data]),
    ("strathspey".data, ["strathspey".data, "strathspeys".data]) ]

/-- `type_keywords[t]` dictionary lookup. -/
def lookupKw (t : List Char) : Option (List (List Char)) :=
  (type_keywords.find? (fun p => p.1 == t)).map (fun p => p.2)

/-- Does any keyword of the list occur in the (lowercased) path string? -/
def kwHit (kws : List (List Char)) (path_str : List Char) : Bool :=
  kws.any (fun k => isInfixCL k path_str)

/-- The no-preferred-type branch of `score_by_type` (lines 72-86): a mild
boost, capped at 1, when the path carries a cue for any catalogued type. -/
def scoreNoPref (path_str : List Char) (base_score : Rat) (tune_types : List TuneInfo) : Rat :=
  let max_boost : Rat := tune_types.foldl (fun mb ti =>
    match lookupKw (ti.ttype.map pyLower) with
    | some kws => if kwHit kws path_str then max mb (mkRat 11 10) else mb
    | none => mb) 1
  min (base_score * max_boost) 1

/-- `score_by_type` (type_aware_scoring.py lines 10-88).  A `None` or empty
preferred type is falsy in Python, taking the no-preferred branch. -/
def score_by_type (file_path : List Char) (base_score : Rat) (tune_types : List TuneInfo)
    (preferred_type : Option (List Char)) : Rat :=
  if tune_types.length ≤ 1 then base_score
  else
    let path_str := file_path.map pyLower
    match preferred_type with
    | some pt =>
      if pt.isEmpty then scoreNoPref path_str base_score tune_types
      else
        let ptl := pt.map pyLower
        let prefHit := match lookupKw ptl with
          | some kws => kwHit kws path_str
          | none => false
        if prefHit then min (base_score * mkRat 6 5) 1
        else if tune_types.any (fun ti =>
            (ti.ttype.map pyLower != ptl) &&
            (match lookupKw (ti.ttype.map pyLower) with
             | some kws => kwHit kws path_str
             | none => false)) then base_score * mkRat 4 5
        else base_score
    | none => scoreNoPref path_str base_score tune_types

/-!  Claim theorems. -/

/-- C1 (counterexample): `normalize_tune_name` does NOT map "The Kesh" and
"Kesh, The" to identical strings: commas are removed before the leading
"The " is rotated into a trailing ", the", so the rotated form keeps a
comma that the "Kesh, The" form has lost. -/
theorem normalize_the_kesh_counterexample :
    normalize_tune_name "The Kesh".data ≠ normalize_tune_name "Kesh, The".data := by decide

/-- C1 (amended): "The Kesh" normalizes to "kesh, the" while "Kesh, The"
normalizes to "kesh the"; the two conventions agree only after a second
normalization pass, not as identical strings. -/
theorem normalize_the_kesh_amended :
    normalize_tune_name "The Kesh".data = "kesh, the".data ∧
    normalize_tune_name "Kesh, The".data = "kesh the".data ∧
    normalize_tune_name (normalize_tune_name "The Kesh".data) =
      normalize_tune_name "Kesh, The".data := by
  refine ⟨by decide, by decide, by decide⟩

/-- C7: `get_tune_aliases` always returns a non-empty list containing the
queried name; when the lowercased, stripped name is not a key of the alias
dictionary — in particular when the dataset is missing, i.e. the dictionary
is empty — it returns exactly the singleton of the original name. -/
theorem get_tune_aliases_fallback :
    ∀ (m : AliasMap) (tune_name : List Char),
      tune_name ∈ get_tune_aliases m tune_name ∧
      get_tune_aliases m tune_name ≠ [] ∧
      (lookupAlias m (pyStrip (tune_name.map pyLower)) = none →
        get_tune_aliases m tune_name = [tune_name]) ∧
      get_tune_aliases [] tune_name = [tune_name] := by
  intro m tune_name
  cases h : lookupAlias m (pyStrip (tune_name.map pyLower)) with
  | none => refine ⟨?_, ?_, fun _ => ?_, rfl⟩ <;> simp [get_tune_aliases, h]
  | some aliases =>
    refine ⟨?_, ?_, fun hnone => ?_, rfl⟩
    · by_cases hm : tune_name ∈ aliases <;> simp [get_tune_aliases, h, hm]
    · by_cases hm : tune_name ∈ aliases
      · simp only [get_tune_aliases, h, if_pos hm]
        exact List.ne_nil_of_mem hm
      · simp [get_tune_aliases, h, hm]
    · exact absurd hnone (by simp)

/-- C7 (witness): a name absent from an absent dataset — the empty alias
dictionary — resolves to exactly itself. -/
theorem get_tune_aliases_fallback_witness :
    get_tune_aliases [] "Totally Unknown Tune XYZ".data = ["Totally Unknown Tune XYZ".data] :=
  (get_tune_aliases_fallback [] "Totally Unknown Tune XYZ".data).2.2.1 (by decide)

/-- C10: because truncation is guarded by Python truthiness rather than a
`None` test, a cap of 0 disables truncation in `fuzzy_match_tune` and
`search_local_files` (the full sorted match list is returned, not zero
results), and `find_tunes_for_set` with `overload=0` uses a per-tune cap
of 1, exactly as the default `None` does. -/
theorem falsy_caps_disable_truncation :
    (∀ (target : List Char) (candidates : List (List Char)) (threshold : Rat),
      fuzzy_match_tune target candidates threshold (some 0) =
        fuzzy_match_tune target candidates threshold none) ∧
    (∀ (target : List Char) (candidates : List (List Char)) (threshold : Rat),
      fuzzy_match_tune target candidates threshold (some 0) =
        pySortDescBy (fun p => p.2) (fmtMatches target candidates threshold)) ∧
    (∀ (m : AliasMap) (fs : List Char → List (List Char)) (tune_name : List Char)
        (directories : List (List Char)) (use_aliases : Bool) (threshold : Rat),
      search_local_files m fs tune_name directories use_aliases threshold (some 0) =
        search_local_files m fs tune_name directories use_aliases threshold none) ∧
    (∀ (m : AliasMap) (fs : List Char → List (List Char)) (tunes : List (List Char))
        (directories : List (List Char)) (use_aliases : Bool) (threshold : Rat),
      find_tunes_for_set m fs tunes directories use_aliases threshold (some 0) =
        find_tunes_for_set m fs tunes directories use_aliases threshold none) :=
  ⟨fun _ _ _ => rfl, fun _ _ _ => rfl, fun _ _ _ _ _ _ => rfl, fun _ _ _ _ _ _ => rfl⟩

/-- C9: `is_tune_in_composite_name` returns true whenever the target is a
case-insensitive substring of the composite (in particular on the
"Carraroe Jig / Kesh Jig / Leaf Reel" example); otherwise it returns true
exactly when some fragment of the full cartesian split on the six
separator tokens (stripped, empties removed) reaches the threshold
similarity with the target. -/
theorem composite_name_containment :
    (∀ (tune_name composite_name : List Char) (threshold : Rat),
      isInfixCL (tune_name.map pyLower) (composite_name.map pyLower) = true →
      is_tune_in_composite_name tune_name composite_name threshold = true) ∧
    is_tune_in_composite_name "Kesh Jig".data "Carraroe Jig / Kesh Jig / Leaf Reel".data
      (mkRat 85 100) = true ∧
    (∀ (tune_name composite_name : List Char) (threshold : Rat),
      isInfixCL (tune_name.map pyLower) (composite_name.map pyLower) = false →
      (is_tune_in_composite_name tune_name composite_name threshold = true ↔
        ∃ p ∈ splitParts composite_name, threshold ≤ calculate_similarity tune_name p)) := by
  refine ⟨?_, by decide, ?_⟩
  · intro tune_name composite_name threshold h
    simp [is_tune_in_composite_name, h]
  · intro tune_name composite_name threshold h
    simp [is_tune_in_composite_name, h, List.any_eq_true]

/-- C9 (witness): a direct substring hit on a concrete composite, and the
fragment-similarity characterization evaluated on a concrete non-substring
case. -/
theorem composite_name_containment_witness :
    is_tune_in_composite_name "Kesh Jig".data "Carraroe Jig _ The Kesh Jig".data
      (mkRat 85 100) = true ∧
    (is_tune_in_composite_name "Maid".data "A / B".data (mkRat 1 2) = true ↔
      ∃ p ∈ splitParts "A / B".data, (mkRat 1 2) ≤ calculate_similarity "Maid".data p) :=
  ⟨composite_name_containment.1 _ _ _ (by decide),
   composite_name_containment.2.2 _ _ _ (by decide)⟩

/-!  Sorting lemmas: Python's `sort(key=..., reverse=True)` is a stable
descending sort, modelled by `pySortDescBy`. -/

theorem mem_insertDesc {α : Type} (key : α → Rat) (x : α) (l : List α) (a : α) :
    a ∈ insertDesc key x l ↔ a = x ∨ a ∈ l := by
  induction l with
  | nil => simp [insertDesc]
  | cons y ys ih =>
    by_cases h : key x < key y
    · simp only [insertDesc, if_pos h, List.mem_cons, ih]
      tauto
    · simp only [insertDesc, if_neg h, List.mem_cons]

theorem pairwise_insertDesc {α : Type} (key : α → Rat) (x : α) (l : List α)
    (h : l.Pairwise (fun a b => key b ≤ key a)) :
    (insertDesc key x l).Pairwise (fun a b => key b ≤ key a) := by
  induction l with
  | nil => simp [insertDesc]
  | cons y ys ih =>
    rw [List.pairwise_cons] at h
    by_cases hk : key x < key y
    · rw [insertDesc, if_pos hk, List.pairwise_cons]
      refine ⟨?_, ih h.2⟩
      intro z hz
      rcases (mem_insertDesc key x ys z).mp hz with rfl | hz
      · exact le_of_lt hk
      · exact h.1 z hz
    · rw [insertDesc, if_neg hk, List.pairwise_cons]
      refine ⟨?_, List.pairwise_cons.mpr h⟩
      intro z hz
      rcases List.mem_cons.mp hz with rfl | hz
      · exact not_lt.mp hk
      · exact le_trans (h.1 z hz) (not_lt.mp hk)

theorem pairwise_pySortDescBy {α : Type} (key : α → Rat) (l : List α) :
    (pySortDescBy key l).Pairwise (fun a b => key b ≤ key a) := by
  induction l with
  | nil => exact List.Pairwise.nil
  | cons x xs ih => exact pairwise_insertDesc key x _ ih

theorem length_insertDesc {α : Type} (key : α → Rat) (x : α) (l : List α) :
    (insertDesc key x l).length = l.length + 1 := by
  induction l with
  | nil => rfl
  | cons y ys ih =>
    by_cases h : key x < key y
    · simp [insertDesc, if_pos h, ih]
    · simp [insertDesc, if_neg h]

theorem length_pySortDescBy {α : Type} (key : α → Rat) (l : List α) :
    (pySortDescBy key l).length = l.length := by
  induction l with
  | nil => rfl
  | cons x xs ih => rw [pySortDescBy, length_insertDesc, ih, List.length_cons]

theorem filter_insertDesc {α : Type} (key : α → Rat) (x : α) (l : List α) (v : Rat) :
    (insertDesc key x l).filter (fun a => decide (key a = v)) =
      if key x = v then x :: l.filter (fun a => decide (key a = v))
      else l.filter (fun a => decide (key a = v)) := by
  induction l with
  | nil => by_cases h : key x = v <;> simp [insertDesc, h]
  | cons y ys ih =>
    by_cases hk : key x < key y
    · rw [insertDesc, if_pos hk]
      by_cases hx : key x = v
      · have hy : ¬ key y = v := by
          rw [hx] at hk
          exact fun hyv => absurd (hyv ▸ hk) (lt_irrefl v)
        simp [List.filter_cons, hx, hy, ih]
      · simp [List.filter_cons, hx, ih]
    · rw [insertDesc, if_neg hk]
      by_cases hx : key x = v <;> simp [List.filter_cons, hx]

theorem filter_pySortDescBy {α : Type} (key : α → Rat) (l : List α) (v : Rat) :
    (pySortDescBy key l).filter (fun a => decide (key a = v)) =
      l.filter (fun a => decide (key a = v)) := by
  induction l with
  | nil => rfl
  | cons x xs ih =>
    rw [pySortDescBy, filter_insertDesc]
    by_cases hx : key x = v <;> simp [List.filter_cons, hx, ih]

theorem pairwise_pyTruncate {α : Type} {R : α → α → Prop} (mr : Option Nat) (l : List α)
    (h : l.Pairwise R) : (pyTruncate mr l).Pairwise R := by
  match mr with
  | none => exact h
  | some 0 => exact h
  | some (n + 1) => exact h.sublist (List.take_sublist _ _)

theorem pairwise_take_drop {α : Type} {R : α → α → Prop} {l : List α}
    (h : l.Pairwise R) (n : Nat) : ∀ x ∈ l.take n, ∀ y ∈ l.drop n, R x y := by
  rw [← List.take_append_drop n l] at h
  exact (List.pairwise_append.mp h).2.2

/-- C5: results of `fuzzy_match_tune` and `search_local_files` are sorted
in descending score order with ties kept in first-encountered order (the
filtered score-v sublist of the output equals that of the pre-sort match
list), and a `max_results=2` cap returns exactly the two highest-scoring
entries (the first two of the sorted list, each dominating every dropped
entry) whenever more than two candidates clear the threshold. -/
theorem match_ordering_truncation :
    (∀ (target : List Char) (candidates : List (List Char)) (threshold : Rat) (mr : Option Nat),
      (fuzzy_match_tune target candidates threshold mr).Pairwise (fun x y => y.2 ≤ x.2)) ∧
    (∀ (target : List Char) (candidates : List (List Char)) (threshold v : Rat),
      (fuzzy_match_tune target candidates threshold none).filter (fun p => decide (p.2 = v)) =
        (fmtMatches target candidates threshold).filter (fun p => decide (p.2 = v))) ∧
    (∀ (target : List Char) (candidates : List (List Char)) (threshold : Rat),
      fuzzy_match_tune target candidates threshold (some 2) =
        (fuzzy_match_tune target candidates threshold none).take 2) ∧
    (∀ (target : List Char) (candidates : List (List Char)) (threshold : Rat),
      2 < (fmtMatches target candidates threshold).length →
      (fuzzy_match_tune target candidates threshold (some 2)).length = 2) ∧
    (∀ (target : List Char) (candidates : List (List Char)) (threshold : Rat),
      ∀ x ∈ fuzzy_match_tune target candidates threshold (some 2),
      ∀ y ∈ (fuzzy_match_tune target candidates threshold none).drop 2, y.2 ≤ x.2) ∧
    (∀ (m : AliasMap) (fs : List Char → List (List Char)) (tune_name : List Char)
        (directories : List (List Char)) (use_aliases : Bool) (threshold : Rat) (mr : Option Nat),
      (search_local_files m fs tune_name directories use_aliases threshold mr).Pairwise
        (fun x y => y.2 ≤ x.2)) ∧
    (∀ (m : AliasMap) (fs : List Char → List (List Char)) (tune_name : List Char)
        (directories : List (List Char)) (use_aliases : Bool) (threshold v : Rat),
      (search_local_files m fs tune_name directories use_aliases threshold none).filter
          (fun p => decide (p.2 = v)) =
        (slfMatches m fs tune_name directories use_aliases threshold).filter
          (fun p => decide (p.2 = v))) ∧
    (∀ (m : AliasMap) (fs : List Char → List (List Char)) (tune_name : List Char)
        (directories : List (List Char)) (use_aliases : Bool) (threshold : Rat),
      2 < (slfMatches m fs tune_name directories use_aliases threshold).length →
      (search_local_files m fs tune_name directories use_aliases threshold (some 2)).length = 2) ∧
    (∀ (m : AliasMap) (fs : List Char → List (List Char)) (tune_name : List Char)
        (directories : List (List Char)) (use_aliases : Bool) (threshold : Rat),
      ∀ x ∈ search_local_files m fs tune_name directories use_aliases threshold (some 2),
      ∀ y ∈ (search_local_files m fs tune_name directories use_aliases threshold none).drop 2,
        y.2 ≤ x.2) := by
  refine ⟨?_, ?_, ?_, ?_, ?_, ?_, ?_, ?_, ?_⟩
  · intro t c θ mr
    exact pairwise_pyTruncate mr _ (pairwise_pySortDescBy _ _)
  · intro t c θ v
    exact filter_pySortDescBy (fun p => p.2) (fmtMatches t c θ) v
  · intro t c θ
    rfl
  · intro t c θ h
    show ((pySortDescBy (fun p => p.2) (fmtMatches t c θ)).take 2).length = 2
    rw [List.length_take, length_pySortDescBy]
    omega
  · intro t c θ x hx y hy
    have hx2 : x ∈ (pySortDescBy (fun p : List Char × Rat => p.2) (fmtMatches t c θ)).take 2 := hx
    have hy2 : y ∈ (pySortDescBy (fun p : List Char × Rat => p.2) (fmtMatches t c θ)).drop 2 := hy
    exact pairwise_take_drop (pairwise_pySortDescBy _ _) 2 x hx2 y hy2
  · intro m fs tn dirs ua θ mr
    exact pairwise_pyTruncate mr _ (pairwise_pySortDescBy _ _)
  · intro m fs tn dirs ua θ v
    exact filter_pySortDescBy (fun p => p.2) (slfMatches m fs tn dirs ua θ) v
  · intro m fs tn dirs ua θ h
    show ((pySortDescBy (fun p => p.2) (slfMatches m fs tn dirs ua θ)).take 2).length = 2
    rw [List.length_take, length_pySortDescBy]
    omega
  · intro m fs tn dirs ua θ x hx y hy
    have hx2 : x ∈ (pySortDescBy (fun p : List Char × Rat => p.2)
        (slfMatches m fs tn dirs ua θ)).take 2 := hx
    have hy2 : y ∈ (pySortDescBy (fun p : List Char × Rat => p.2)
        (slfMatches m fs tn dirs ua θ)).drop 2 := hy
    exact pairwise_take_drop (pairwise_pySortDescBy _ _) 2 x hx2 y hy2

/-- C5 (witness): with three candidates above the threshold, the capped
searches return exactly two entries, both for `fuzzy_match_tune` and for
`search_local_files` over a three-file directory. -/
theorem match_ordering_truncation_witness :
    (fuzzy_match_tune "a".data ["a".data, "ab".data, "a".data, "a".data] 0 (some 2)).length = 2 ∧
    (search_local_files [] (fun _ => ["/m/x.mp3".data, "/m/y.mp3".data, "/m/z.mp3".data])
      "x".data ["/m".data] false 0 (some 2)).length = 2 :=
  ⟨match_ordering_truncation.2.2.2.1 _ _ _ (by decide),
   match_ordering_truncation.2.2.2.2.2.2.2.1 _ _ _ _ _ _ (by decide)⟩

/-- C6: `score_by_type` is the identity on the base score whenever at most
one identity is catalogued; and for a name with two identities (a reel and
a jig), a path tagged "reels" strictly outranks a path tagged "jigs" under
`preferred_type="reel"` for every base score in (0,1]. -/
theorem score_by_type_spec :
    (∀ (file_path : List Char) (base_score : Rat) (tune_types : List TuneInfo)
        (preferred_type : Option (List Char)),
      tune_types.length ≤ 1 →
      score_by_type file_path base_score tune_types preferred_type = base_score) ∧
    (∀ base_score : Rat, 0 < base_score → base_score ≤ 1 →
      score_by_type "/tunes/reels/the kesh.mp3".data base_score
          [⟨"reel".data⟩, ⟨"jig".data⟩] (some "reel".data) >
        score_by_type "/tunes/jigs/the kesh.mp3".data base_score
          [⟨"reel".data⟩, ⟨"jig".data⟩] (some "reel".data)) := by
  constructor
  · intro fp b tts pt h
    simp [score_by_type, h]
  · intro b hb hb1
    have hL : score_by_type "/tunes/reels/the kesh.mp3".data b
        [⟨"reel".data⟩, ⟨"jig".data⟩] (some "reel".data) = min (b * mkRat 6 5) 1 := rfl
    have hR : score_by_type "/tunes/jigs/the kesh.mp3".data b
        [⟨"reel".data⟩, ⟨"jig".data⟩] (some "reel".data) = b * mkRat 4 5 := rfl
    rw [hL, hR]
    have h65 : (mkRat 6 5 : Rat) = 6 / 5 := by
      rw [Rat.mkRat_eq_divInt]
      norm_num [Rat.divInt_eq_div]
    have h45 : (mkRat 4 5 : Rat) = 4 / 5 := by
      rw [Rat.mkRat_eq_divInt]
      norm_num [Rat.divInt_eq_div]
    rw [h65, h45]
    rcases le_total (b * (6 / 5 : Rat)) 1 with h | h
    · rw [min_eq_left h]
      nlinarith
    · rw [min_eq_right h]
      nlinarith

/-- C6 (witness): at base score 1/2 the reel-tagged path strictly outranks
the jig-tagged path, and a single-identity list is a no-op. -/
theorem score_by_type_spec_witness :
    ((0 : Rat) < 1 / 2 ∧ (1 / 2 : Rat) ≤ 1) ∧
    score_by_type "/tunes/reels/the kesh.mp3".data (1 / 2)
        [⟨"reel".data⟩, ⟨"jig".data⟩] (some "reel".data) >
      score_by_type "/tunes/jigs/the kesh.mp3".data (1 / 2)
        [⟨"reel".data⟩, ⟨"jig".data⟩] (some "reel".data) ∧
    score_by_type "/tunes/reels/the kesh.mp3".data (1 / 2) [⟨"reel".data⟩] none = 1 / 2 :=
  ⟨⟨by norm_num, by norm_num⟩,
   score_by_type_spec.2 (1 / 2) (by norm_num) (by norm_num),
   score_by_type_spec.1 _ _ _ _ (by decide)⟩

/-!  Bounds for the SequenceMatcher: the total size of the matching blocks
never exceeds either string length, so the ratio lies in [0,1]. -/

/-- Invariant of the best-block triple inside `find_longest_match`: either
it is still the initial `(alo, blo, 0)`, or it denotes a real block within
the `[alo, ahi) × [blo, bhi)` rectangle. -/
def BestInv (alo ahi blo bhi : Nat) (best : Nat × Nat × Nat) : Prop :=
  (best.2.2 = 0 → best = (alo, blo, 0)) ∧
  (best.2.2 ≠ 0 →
    alo ≤ best.1 ∧ blo ≤ best.2.1 ∧ best.1 + best.2.2 ≤ ahi ∧ best.2.1 + best.2.2 ≤ bhi)

theorem lookupJ_cases (m : List (Nat × Nat)) (j : Nat) :
    lookupJ m j = 0 ∨ ∃ p ∈ m, p.1 = j ∧ lookupJ m j = p.2 := by
  unfold lookupJ
  cases h : m.find? (fun p => p.1 == j) with
  | none => exact Or.inl rfl
  | some p =>
    refine Or.inr ⟨p, List.mem_of_find?_eq_some h, ?_, rfl⟩
    simpa using List.find?_some h

theorem processJs_spec {alo ahi blo bhi : Nat} (j2len : List (Nat × Nat)) (i : Nat)
    (hialo : alo ≤ i) (hiahi : i < ahi)
    (hold : ∀ p ∈ j2len, p.2 + blo ≤ p.1 + 1 ∧ p.2 + alo ≤ i) :
    ∀ (js : List Nat) (acc : List (Nat × Nat)) (best : Nat × Nat × Nat),
      (∀ j ∈ js, blo ≤ j ∧ j < bhi) →
      (∀ p ∈ acc, p.2 + blo ≤ p.1 + 1 ∧ p.2 + alo ≤ i + 1) →
      BestInv alo ahi blo bhi best →
      (∀ p ∈ (processJs j2len i js acc best).1, p.2 + blo ≤ p.1 + 1 ∧ p.2 + alo ≤ i + 1) ∧
      BestInv alo ahi blo bhi (processJs j2len i js acc best).2 := by
  intro js
  induction js with
  | nil => exact fun acc best _ hacc hbest => ⟨hacc, hbest⟩
  | cons j js ih =>
    intro acc best hjs hacc hbest
    have hj := hjs j (List.mem_cons_self _ _)
    have hk : ((if j = 0 then 0 else lookupJ j2len (j - 1)) + 1) + blo ≤ j + 1 ∧
        ((if j = 0 then 0 else lookupJ j2len (j - 1)) + 1) + alo ≤ i + 1 := by
      by_cases h0 : j = 0
      · rw [if_pos h0]
        omega
      · simp only [if_neg h0]
        rcases lookupJ_cases j2len (j - 1) with hz | ⟨p, hp, hpj, hval⟩
        · rw [hz]
          omega
        · have hpb := hold p hp
          rw [hval]
          omega
    simp only [processJs]
    apply ih
    · exact fun j' hj' => hjs j' (List.mem_cons_of_mem _ hj')
    · intro p hp
      rcases List.mem_cons.mp hp with rfl | hp
      · exact hk
      · exact hacc p hp
    · by_cases hlt : best.2.2 < (if j = 0 then 0 else lookupJ j2len (j - 1)) + 1
      · rw [if_pos hlt]
        constructor
        · intro h
          exact absurd h (by simp)
        · intro _
          dsimp only
          refine ⟨by omega, by omega, by omega, by omega⟩
      · rw [if_neg hlt]
        exact hbest

theorem flmLoop_spec (bj : Char → List Nat) (a : List Char) {alo ahi blo bhi : Nat} :
    ∀ (is : List Nat) (j2len : List (Nat × Nat)) (best : Nat × Nat × Nat),
      is.Pairwise (· < ·) →
      (∀ i ∈ is, alo ≤ i ∧ i < ahi) →
      (∀ p ∈ j2len, p.2 + blo ≤ p.1 + 1 ∧ ∀ i ∈ is, p.2 + alo ≤ i) →
      BestInv alo ahi blo bhi best →
      BestInv alo ahi blo bhi (flmLoop bj a blo bhi is j2len best) := by
  intro is
  induction is with
  | nil => exact fun _ best _ _ _ hbest => hbest
  | cons i is ih =>
    intro j2len best hpw hin hold hbest
    have hi := hin i (List.mem_cons_self _ _)
    have hjsprop : ∀ j ∈ (bj (a.getD i default)).filter
        (fun j => decide (blo ≤ j) && decide (j < bhi)), blo ≤ j ∧ j < bhi := by
      intro j hjm
      have := (List.mem_filter.mp hjm).2
      simpa using this
    obtain ⟨hnew, hbest'⟩ := processJs_spec j2len i hi.1 hi.2
      (fun p hp => ⟨(hold p hp).1, (hold p hp).2 i (List.mem_cons_self _ _)⟩)
      _ [] best hjsprop (by simp) hbest
    rw [flmLoop]
    apply ih _ _ (List.pairwise_cons.mp hpw).2 (fun i' hi' => hin i' (List.mem_cons_of_mem _ hi'))
      _ hbest'
    intro p hp
    refine ⟨(hnew p hp).1, ?_⟩
    intro i' hi'
    have hlt := (List.pairwise_cons.mp hpw).1 i' hi'
    have := (hnew p hp).2
    omega

theorem extendBack_spec (a b : List Char) (alo blo : Nat) :
    ∀ (bi bj bs : Nat), alo ≤ bi → blo ≤ bj →
      (extendBack a b alo blo bi bj bs).1 + (extendBack a b alo blo bi bj bs).2.2 = bi + bs ∧
      (extendBack a b alo blo bi bj bs).2.1 + (extendBack a b alo blo bi bj bs).2.2 = bj + bs ∧
      alo ≤ (extendBack a b alo blo bi bj bs).1 ∧
      blo ≤ (extendBack a b alo blo bi bj bs).2.1 ∧
      bs ≤ (extendBack a b alo blo bi bj bs).2.2 := by
  intro bi
  induction bi with
  | zero =>
    intro bj bs h1 h2
    dsimp only [extendBack]
    omega
  | succ n ih =>
    intro bj bs h1 h2
    rw [extendBack]
    by_cases hc : alo ≤ n ∧ blo < bj ∧ charEq a b n (bj - 1) = true
    · rw [if_pos hc]
      have := ih (bj - 1) (bs + 1) hc.1 (by omega)
      omega
    · rw [if_neg hc]
      dsimp only
      omega

theorem extendBack_self (a b : List Char) (alo blo bs : Nat) :
    extendBack a b alo blo alo blo bs = (alo, blo, bs) := by
  cases alo with
  | zero => rfl
  | succ n =>
    rw [extendBack, if_neg]
    intro h
    exact absurd h.1 (by omega)

theorem extendFwd_spec (a b : List Char) (ahi bhi bi bj : Nat) :
    ∀ (fuel bs : Nat),
      bs ≤ extendFwd a b ahi bhi bi bj fuel bs ∧
      (extendFwd a b ahi bhi bi bj fuel bs = bs ∨
        (bi + extendFwd a b ahi bhi bi bj fuel bs ≤ ahi ∧
         bj + extendFwd a b ahi bhi bi bj fuel bs ≤ bhi)) := by
  intro fuel
  induction fuel with
  | zero => exact fun bs => ⟨Nat.le_refl _, Or.inl rfl⟩
  | succ n ih =>
    intro bs
    rw [extendFwd]
    by_cases hc : bi + bs < ahi ∧ bj + bs < bhi ∧ charEq a b (bi + bs) (bj + bs) = true
    · rw [if_pos hc]
      obtain ⟨h1, h2⟩ := ih (bs + 1)
      refine ⟨by omega, Or.inr ?_⟩
      rcases h2 with he | hb
      · rw [he]
        omega
      · exact hb
    · rw [if_neg hc]
      exact ⟨Nat.le_refl _, Or.inl rfl⟩

theorem findLongestMatch_spec (a b : List Char) (alo ahi blo bhi : Nat) :
    (findLongestMatch a b alo ahi blo bhi).2.2 ≠ 0 →
    alo ≤ (findLongestMatch a b alo ahi blo bhi).1 ∧
    blo ≤ (findLongestMatch a b alo ahi blo bhi).2.1 ∧
    (findLongestMatch a b alo ahi blo bhi).1 + (findLongestMatch a b alo ahi blo bhi).2.2 ≤ ahi ∧
    (findLongestMatch a b alo ahi blo bhi).2.1 + (findLongestMatch a b alo ahi blo bhi).2.2 ≤ bhi := by
  have hbest : BestInv alo ahi blo bhi
      (flmLoop (b2jOf b) a blo bhi (List.range' alo (ahi - alo)) [] (alo, blo, 0)) := by
    apply flmLoop_spec
    · exact List.pairwise_lt_range' _ _
    · intro i hi
      have := List.mem_range'_1.mp hi
      omega
    · intro p hp
      exact absurd hp (List.not_mem_nil p)
    · exact ⟨fun _ => rfl, fun h => absurd rfl h⟩
  rw [show findLongestMatch a b alo ahi blo bhi =
      (let best := flmLoop (b2jOf b) a blo bhi (List.range' alo (ahi - alo)) [] (alo, blo, 0)
       let r := extendBack a b alo blo best.1 best.2.1 best.2.2
       (r.1, r.2.1, extendFwd a b ahi bhi r.1 r.2.1 ahi r.2.2)) from rfl]
  simp only
  set best := flmLoop (b2jOf b) a blo bhi (List.range' alo (ahi - alo)) [] (alo, blo, 0) with hB
  intro hk
  rcases Nat.eq_zero_or_pos best.2.2 with hz | hpos
  · have hb0 : best = (alo, blo, 0) := hbest.1 hz
    rw [hb0] at hk ⊢
    simp only [extendBack_self] at hk ⊢
    obtain ⟨hge, hca⟩ := extendFwd_spec a b ahi bhi alo blo ahi 0
    rcases hca with he | hb
    · exact absurd he hk
    · exact ⟨Nat.le_refl _, Nat.le_refl _, hb.1, hb.2⟩
  · have hinv := hbest.2 (by omega)
    have hback := extendBack_spec a b alo blo best.1 best.2.1 best.2.2 hinv.1 hinv.2.1
    obtain ⟨hge, hca⟩ :=
      extendFwd_spec a b ahi bhi (extendBack a b alo blo best.1 best.2.1 best.2.2).1
        (extendBack a b alo blo best.1 best.2.1 best.2.2).2.1 ahi
        (extendBack a b alo blo best.1 best.2.1 best.2.2).2.2
    rcases hca with he | hb
    · rw [he]
      refine ⟨hback.2.2.1, hback.2.2.2.1, ?_, ?_⟩ <;> omega
    · exact ⟨hback.2.2.1, hback.2.2.2.1, hb.1, hb.2⟩

theorem matchesTotalAux_le (a b : List Char) :
    ∀ (fuel alo ahi blo bhi : Nat),
      matchesTotalAux a b fuel alo ahi blo bhi ≤ ahi - alo ∧
      matchesTotalAux a b fuel alo ahi blo bhi ≤ bhi - blo := by
  intro fuel
  induction fuel with
  | zero =>
    intro _ _ _ _
    simp [matchesTotalAux]
  | succ n ih =>
    intro alo ahi blo bhi
    rw [matchesTotalAux]
    by_cases hz : (findLongestMatch a b alo ahi blo bhi).2.2 = 0
    · rw [if_pos hz]
      omega
    · rw [if_neg hz]
      have hspec := findLongestMatch_spec a b alo ahi blo bhi hz
      obtain ⟨h1l, h1r⟩ := ih alo (findLongestMatch a b alo ahi blo bhi).1 blo
        (findLongestMatch a b alo ahi blo bhi).2.1
      obtain ⟨h2l, h2r⟩ := ih
        ((findLongestMatch a b alo ahi blo bhi).1 + (findLongestMatch a b alo ahi blo bhi).2.2) ahi
        ((findLongestMatch a b alo ahi blo bhi).2.1 + (findLongestMatch a b alo ahi blo bhi).2.2) bhi
      constructor <;> omega

theorem matchesTotal_le (a b : List Char) :
    matchesTotal a b ≤ a.length ∧ matchesTotal a b ≤ b.length := by
  have := matchesTotalAux_le a b (a.length + b.length + 1) 0 a.length 0 b.length
  simpa [matchesTotal] using this

theorem ratioVal_bounds (a b : List Char) : 0 ≤ ratioVal a b ∧ ratioVal a b ≤ 1 := by
  rw [ratioVal]
  by_cases h : a.length + b.length = 0
  · rw [if_pos h]
    norm_num
  · rw [if_neg h]
    have hM := matchesTotal_le a b
    rw [Rat.mkRat_eq_divInt, Rat.divInt_eq_div]
    constructor
    · apply div_nonneg <;> positivity
    · rw [div_le_one (by positivity)]
      have h2 : 2 * matchesTotal a b ≤ a.length + b.length := by omega
      exact_mod_cast h2

theorem calculate_similarity_nonneg (s1 s2 : List Char) : 0 ≤ calculate_similarity s1 s2 := by
  by_cases h : normalize_tune_name s1 = normalize_tune_name s2
  · simp [calculate_similarity, h]
  · simpa [calculate_similarity, h] using (ratioVal_bounds _ _).1

theorem calculate_similarity_le_one (s1 s2 : List Char) : calculate_similarity s1 s2 ≤ 1 := by
  by_cases h : normalize_tune_name s1 = normalize_tune_name s2
  · simp [calculate_similarity, h]
  · simpa [calculate_similarity, h] using (ratioVal_bounds _ _).2

/-- C8 (counterexample): `calculate_similarity` is NOT symmetric.  The
greedy matching-block decomposition of `SequenceMatcher` depends on the
argument order: for "aba" vs "babba" the ratio is 3/4 one way and 1/2 the
other. -/
theorem calculate_similarity_asym :
    calculate_similarity "aba".data "babba".data ≠
      calculate_similarity "babba".data "aba".data := by decide

/-- C8 (amended): `calculate_similarity` always lies in [0,1] and returns
exactly 1 whenever the two normalized forms are equal; symmetry, however,
does not hold in general (see the counterexample). -/
theorem calculate_similarity_bounds :
    (∀ a b : List Char, 0 ≤ calculate_similarity a b ∧ calculate_similarity a b ≤ 1) ∧
    (∀ a b : List Char, normalize_tune_name a = normalize_tune_name b →
      calculate_similarity a b = 1) := by
  refine ⟨fun a b => ⟨calculate_similarity_nonneg a b, calculate_similarity_le_one a b⟩, ?_⟩
  intro a b h
  simp [calculate_similarity, h]

/-- C8 (witness): the fast path returns exactly 1 on two spellings with
equal normalized forms. -/
theorem calculate_similarity_bounds_witness :
    calculate_similarity "The Kesh".data "the  KESH ".data = 1 :=
  calculate_similarity_bounds.2 _ _ (by decide)

/-!  Conditional idempotence of the normalizer (C2).  Idempotence fails in
general: the rotation appends ", the" whose comma a second pass strips.
It holds whenever the normalized form has no comma, no edge whitespace and
no leading "the ". -/

theorem toNat_ofNat_shift {n : Nat} (h1 : 65 ≤ n) (h2 : n ≤ 90) :
    (Char.ofNat (n + 32)).toNat = n + 32 := by
  rw [Char.ofNat, dif_pos (Or.inl (by omega) : Nat.isValidChar (n + 32))]
  simp [Char.ofNatAux, Char.toNat, UInt32.toNat]

theorem pyLower_idem (c : Char) : pyLower (pyLower c) = pyLower c := by
  by_cases h : 65 ≤ c.toNat ∧ c.toNat ≤ 90
  · have hc : pyLower c = Char.ofNat (c.toNat + 32) := by rw [pyLower, if_pos h]
    rw [hc, pyLower, if_neg]
    rw [toNat_ofNat_shift h.1 h.2]
    omega
  · have hc : pyLower c = c := by rw [pyLower, if_neg h]
    rw [hc, hc]

/-- The character-level facts holding for every character of a normalized
name (assuming no comma, which only the rotation can introduce). -/
def GoodChar (c : Char) : Prop :=
  pyLower c = c ∧ isApostrophe c = false ∧ isPunct c = false ∧ isHyphen c = false ∧
    (isPySpace c = true → c = ' ')

theorem goodChar_space : GoodChar ' ' :=
  ⟨by decide, by decide, by decide, by decide, fun _ => rfl⟩

theorem collapseWsAux_cons_space_false {d : Char} (hd : isPySpace d = true)
    (ds : List Char) : collapseWsAux false (d :: ds) = ' ' :: collapseWsAux true ds := by
  simp [collapseWsAux, hd]

theorem collapseWsAux_cons_space_true {d : Char} (hd : isPySpace d = true)
    (ds : List Char) : collapseWsAux true (d :: ds) = collapseWsAux true ds := by
  simp [collapseWsAux, hd]

theorem collapseWsAux_cons_nonspace {d : Char} (f : Bool) (hd : isPySpace d = false)
    (ds : List Char) : collapseWsAux f (d :: ds) = d :: collapseWsAux false ds := by
  simp [collapseWsAux, hd]

theorem mem_collapseWsAux {c : Char} :
    ∀ (f : Bool) (l : List Char), c ∈ collapseWsAux f l →
      c = ' ' ∨ (c ∈ l ∧ isPySpace c = false) := by
  intro f l
  induction l generalizing f with
  | nil => exact fun h => absurd h (List.not_mem_nil c)
  | cons d ds ih =>
    intro h
    by_cases hd : isPySpace d
    · cases f with
      | true =>
        rw [collapseWsAux_cons_space_true hd] at h
        rcases ih true h with h' | ⟨hm, hs⟩
        · exact Or.inl h'
        · exact Or.inr ⟨List.mem_cons_of_mem _ hm, hs⟩
      | false =>
        rw [collapseWsAux_cons_space_false hd] at h
        rcases List.mem_cons.mp h with h' | h'
        · exact Or.inl h'
        · rcases ih true h' with h'' | ⟨hm, hs⟩
          · exact Or.inl h''
          · exact Or.inr ⟨List.mem_cons_of_mem _ hm, hs⟩
    · have hd' : isPySpace d = false := by simpa using hd
      rw [collapseWsAux_cons_nonspace f hd'] at h
      rcases List.mem_cons.mp h with rfl | h'
      · exact Or.inr ⟨List.mem_cons_self _ _, hd'⟩
      · rcases ih false h' with h'' | ⟨hm, hs⟩
        · exact Or.inl h''
        · exact Or.inr ⟨List.mem_cons_of_mem _ hm, hs⟩

theorem head?_collapseWsAux_true :
    ∀ (l : List Char) (c : Char), (collapseWsAux true l).head? = some c →
      isPySpace c = false := by
  intro l
  induction l with
  | nil => intro c h; simp [collapseWsAux] at h
  | cons d ds ih =>
    intro c h
    by_cases hd : isPySpace d
    · rw [collapseWsAux_cons_space_true hd] at h
      exact ih c h
    · have hd' : isPySpace d = false := by simpa using hd
      rw [collapseWsAux_cons_nonspace true hd'] at h
      simp only [List.head?_cons, Option.some.injEq] at h
      rw [← h]
      exact hd'

theorem chain_collapseWsAux :
    ∀ (l : List Char) (f : Bool), (collapseWsAux f l).Chain'
      (fun a b => isPySpace a = true → isPySpace b = false) := by
  intro l
  induction l with
  | nil => intro f; simp [collapseWsAux]
  | cons d ds ih =>
    intro f
    by_cases hd : isPySpace d
    · cases f with
      | true =>
        rw [collapseWsAux_cons_space_true hd]
        exact ih true
      | false =>
        rw [collapseWsAux_cons_space_false hd, List.chain'_cons']
        exact ⟨fun b hb _ => head?_collapseWsAux_true ds b hb, ih true⟩
    · have hd' : isPySpace d = false := by simpa using hd
      rw [collapseWsAux_cons_nonspace f hd', List.chain'_cons']
      exact ⟨fun b _ hsp => absurd hsp (by simp [hd']), ih false⟩

theorem collapseWsAux_eq_self :
    ∀ l : List Char,
      (∀ c ∈ l, isPySpace c = true → c = ' ') →
      l.Chain' (fun a b => isPySpace a = true → isPySpace b = false) →
      collapseWsAux false l = l := by
  intro l
  induction l with
  | nil => intro _ _; rfl
  | cons d ds ih =>
    intro hsp hch
    by_cases hd : isPySpace d
    · have hd' : d = ' ' := hsp d (List.mem_cons_self _ _) hd
      rw [collapseWsAux_cons_space_false hd]
      have hds : collapseWsAux true ds = ds := by
        cases ds with
        | nil => rfl
        | cons e es =>
          have he : isPySpace e = false := (List.chain'_cons'.mp hch).1 e rfl hd
          have hih := ih (fun c hcm => hsp c (List.mem_cons_of_mem _ hcm))
            (List.chain'_cons'.mp hch).2
          rw [collapseWsAux_cons_nonspace true he]
          rw [collapseWsAux_cons_nonspace false he] at hih
          exact hih
      rw [hds, hd']
    · have hd' : isPySpace d = false := by simpa using hd
      rw [collapseWsAux_cons_nonspace false hd']
      rw [ih (fun c hcm => hsp c (List.mem_cons_of_mem _ hcm)) (List.chain'_cons'.mp hch).2]

theorem mem_pyStrip {c : Char} {l : List Char} (h : c ∈ pyStrip l) : c ∈ l := by
  unfold pyStrip at h
  have h1 := List.mem_reverse.mp h
  have h2 := (List.dropWhile_sublist _).subset h1
  have h3 := List.mem_reverse.mp h2
  exact (List.dropWhile_sublist _).subset h3

theorem pyStrip_eq_self (l : List Char)
    (hh : ∀ c, l.head? = some c → isPySpace c = false)
    (hl : ∀ c, l.getLast? = some c → isPySpace c = false) :
    pyStrip l = l := by
  have h1 : l.dropWhile isPySpace = l := by
    cases l with
    | nil => rfl
    | cons d ds =>
      rw [List.dropWhile_cons_of_neg]
      simp [hh d rfl]
  rw [pyStrip, h1]
  have h2 : l.reverse.dropWhile isPySpace = l.reverse := by
    cases hr : l.reverse with
    | nil => rfl
    | cons d ds =>
      rw [List.dropWhile_cons_of_neg]
      have hld : l.getLast? = some d := by
        rw [← List.head?_reverse, hr]
        rfl
      simp [hl d hld]
  rw [h2, List.reverse_reverse]

theorem map_eq_self_of {f : Char → Char} :
    ∀ l : List Char, (∀ c ∈ l, f c = c) → l.map f = l := by
  intro l
  induction l with
  | nil => intro _; rfl
  | cons d ds ih =>
    intro h
    rw [List.map_cons, h d (List.mem_cons_self _ _),
      ih (fun c hc => h c (List.mem_cons_of_mem _ hc))]

/-- The normalization pipeline before the The-rotation step. -/
def preRotate (s : List Char) : List Char :=
  collapseWs ((((pyStrip (s.map pyLower)).filter (fun c => !isApostrophe c)).filter
    (fun c => !isPunct c)).map (fun c => if isHyphen c then ' ' else c))

theorem normalize_tune_name_eq (s : List Char) :
    normalize_tune_name s =
      if "the ".data.isPrefixOf (preRotate s) then (preRotate s).drop 4 ++ ", the".data
      else preRotate s := rfl

theorem goodChar_of_mem_preRotate (s : List Char) :
    ∀ c ∈ preRotate s, GoodChar c := by
  intro c hc
  rcases mem_collapseWsAux false _ hc with rfl | ⟨hc4, hcsp⟩
  · exact goodChar_space
  · rcases List.mem_map.mp hc4 with ⟨d, hd3, hdc⟩
    by_cases hhy : isHyphen d
    · rw [if_pos hhy] at hdc
      cases hdc
      exact absurd hcsp (by decide)
    · rw [if_neg hhy] at hdc
      subst hdc
      obtain ⟨hd2, hdp⟩ := List.mem_filter.mp hd3
      obtain ⟨hd1, hda⟩ := List.mem_filter.mp hd2
      have hdl := mem_pyStrip hd1
      rcases List.mem_map.mp hdl with ⟨e, _, hde⟩
      refine ⟨?_, by simpa using hda, by simpa using hdp, by simpa using hhy, ?_⟩
      · rw [← hde]
        exact pyLower_idem e
      · intro hsp
        exact absurd hsp (by simp [hcsp])

/-- C2 (counterexample): `normalize_tune_name` is NOT idempotent: a second
pass strips the comma of the ", the" suffix produced by the first. -/
theorem normalize_not_idempotent :
    normalize_tune_name (normalize_tune_name "The Kesh".data) ≠
      normalize_tune_name "The Kesh".data := by decide

/-- C2 (amended): `normalize_tune_name` is idempotent on every string whose
normalized form contains no comma (i.e. the The-rotation did not fire),
neither starts nor ends with whitespace, and does not itself start with
"the ".  Each hypothesis is necessary: "The Kesh" (comma), "-abc" (edge
space produced from a leading hyphen) and "the the kesh" (re-rotation)
violate idempotence. -/
theorem normalize_idempotent_conditional (s : List Char)
    (hc : ',' ∉ normalize_tune_name s)
    (hh : ∀ c, (normalize_tune_name s).head? = some c → isPySpace c = false)
    (hl : ∀ c, (normalize_tune_name s).getLast? = some c → isPySpace c = false)
    (ht : "the ".data.isPrefixOf (normalize_tune_name s) = false) :
    normalize_tune_name (normalize_tune_name s) = normalize_tune_name s := by
  have hnr : ¬ "the ".data.isPrefixOf (preRotate s) = true := by
    intro hpre
    apply hc
    rw [normalize_tune_name_eq, if_pos hpre]
    exact List.mem_append_right _ (by decide)
  have hn : normalize_tune_name s = preRotate s := by
    rw [normalize_tune_name_eq, if_neg hnr]
  rw [hn] at hc hh hl ht ⊢
  have hgood : ∀ c ∈ preRotate s, GoodChar c := goodChar_of_mem_preRotate s
  have e1 : (preRotate s).map pyLower = preRotate s :=
    map_eq_self_of _ (fun c hcm => (hgood c hcm).1)
  have e2 : pyStrip (preRotate s) = preRotate s := pyStrip_eq_self _ hh hl
  have e3 : (preRotate s).filter (fun c => !isApostrophe c) = preRotate s :=
    List.filter_eq_self.mpr (fun c hcm => by simp [(hgood c hcm).2.1])
  have e4 : (preRotate s).filter (fun c => !isPunct c) = preRotate s :=
    List.filter_eq_self.mpr (fun c hcm => by simp [(hgood c hcm).2.2.1])
  have e5 : (preRotate s).map (fun c => if isHyphen c then ' ' else c) = preRotate s :=
    map_eq_self_of _ (fun c hcm => by simp [(hgood c hcm).2.2.2.1])
  have e6 : collapseWs (preRotate s) = preRotate s := by
    apply collapseWsAux_eq_self
    · exact fun c hcm => (hgood c hcm).2.2.2.2
    · exact chain_collapseWsAux _ false
  have hpn : preRotate (preRotate s) = preRotate s := by
    rw [preRotate, e1, e2, e3, e4, e5]
    exact e6
  rw [normalize_tune_name_eq (preRotate s), hpn, if_neg (by simp [ht])]

/-- C2 (witness): idempotence holds at "Kesh Jig", whose normalized form
"kesh jig" has no comma, no edge whitespace and no leading "the ". -/
theorem normalize_idempotent_conditional_witness :
    normalize_tune_name (normalize_tune_name "Kesh Jig".data) =
      normalize_tune_name "Kesh Jig".data :=
  normalize_idempotent_conditional "Kesh Jig".data (by decide)
    (by decide) (by decide) (by decide)

/-!  The end-to-end single-file search (C3). -/

theorem fuzzy_single (t e : List Char) :
    fuzzy_match_tune t [e] 0 none = [(e, calculate_similarity t e)] := by
  have h0 := calculate_similarity_nonneg t e
  simp [fuzzy_match_tune, fmtMatches, pySortDescBy, pyTruncate, insertDesc, h0]

theorem bestScoreStep_ge (e : List Char) (θ acc : Rat) (term : List Char) :
    acc ≤ bestScoreStep e θ acc term := by
  rw [bestScoreStep, fuzzy_single]
  dsimp only
  by_cases h : is_tune_in_composite_name term e θ = true
  · rw [if_pos h]
    exact le_trans (le_max_left _ _) (le_max_left _ _)
  · rw [if_neg h]
    exact le_max_left _ _

theorem bestScoreStep_ge_sim (e : List Char) (θ acc : Rat) (term : List Char) :
    calculate_similarity term e ≤ bestScoreStep e θ acc term := by
  rw [bestScoreStep, fuzzy_single]
  dsimp only
  by_cases h : is_tune_in_composite_name term e θ = true
  · rw [if_pos h]
    exact le_trans (le_max_right _ _) (le_max_left _ _)
  · rw [if_neg h]
    exact le_max_right _ _

theorem bestScoreStep_le_one (e : List Char) (θ acc : Rat) (term : List Char)
    (h : acc ≤ 1) : bestScoreStep e θ acc term ≤ 1 := by
  rw [bestScoreStep, fuzzy_single]
  dsimp only
  have hs := calculate_similarity_le_one term e
  by_cases hc : is_tune_in_composite_name term e θ = true
  · rw [if_pos hc]
    exact max_le (max_le h hs) (by decide)
  · rw [if_neg hc]
    exact max_le h hs

theorem foldl_bestScoreStep_ge (e : List Char) (θ : Rat) :
    ∀ (l : List (List Char)) (acc : Rat), acc ≤ l.foldl (bestScoreStep e θ) acc := by
  intro l
  induction l with
  | nil => exact fun acc => le_refl _
  | cons u us ih =>
    intro acc
    exact le_trans (bestScoreStep_ge e θ acc u) (ih _)

theorem bestScore_le_one (terms : List (List Char)) (e : List Char) (θ : Rat) :
    bestScore terms e θ ≤ 1 := by
  rw [bestScore]
  have haux : ∀ (l : List (List Char)) (acc : Rat), acc ≤ 1 →
      l.foldl (bestScoreStep e θ) acc ≤ 1 := by
    intro l
    induction l with
    | nil => exact fun acc h => h
    | cons u us ih => exact fun acc h => ih _ (bestScoreStep_le_one e θ acc u h)
  exact haux terms 0 (by norm_num)

theorem sim_le_bestScore {t : List Char} (terms : List (List Char)) (e : List Char) (θ : Rat)
    (ht : t ∈ terms) : calculate_similarity t e ≤ bestScore terms e θ := by
  rw [bestScore]
  have haux : ∀ (l : List (List Char)) (acc : Rat), t ∈ l →
      calculate_similarity t e ≤ l.foldl (bestScoreStep e θ) acc := by
    intro l
    induction l with
    | nil => exact fun acc h => absurd h (List.not_mem_nil t)
    | cons u us ih =>
      intro acc h
      rcases List.mem_cons.mp h with rfl | h'
      · exact le_trans (bestScoreStep_ge_sim e θ acc t) (foldl_bestScoreStep_ge e θ us _)
      · exact ih _ h'
  exact haux terms 0 ht

theorem mem_dedupKeepFirstAux {a : List Char} :
    ∀ (l seen : List (List Char)), a ∈ dedupKeepFirstAux seen l ↔ a ∈ l ∧ a ∉ seen := by
  intro l
  induction l with
  | nil => intro seen; simp [dedupKeepFirstAux]
  | cons v vs ih =>
    intro seen
    by_cases hv : v ∈ seen
    · rw [dedupKeepFirstAux, if_pos hv, ih]
      constructor
      · exact fun ⟨h1, h2⟩ => ⟨List.mem_cons_of_mem _ h1, h2⟩
      · rintro ⟨h1, h2⟩
        rcases List.mem_cons.mp h1 with rfl | h1'
        · exact absurd hv h2
        · exact ⟨h1', h2⟩
    · rw [dedupKeepFirstAux, if_neg hv]
      constructor
      · intro h
        rcases List.mem_cons.mp h with rfl | h'
        · exact ⟨List.mem_cons_self _ _, hv⟩
        · obtain ⟨h1, h2⟩ := (ih (v :: seen)).mp h'
          exact ⟨List.mem_cons_of_mem _ h1, fun hs => h2 (List.mem_cons_of_mem _ hs)⟩
      · rintro ⟨h1, h2⟩
        rcases List.mem_cons.mp h1 with rfl | h1'
        · exact List.mem_cons_self _ _
        · by_cases hav : a = v
          · subst hav
            exact List.mem_cons_self _ _
          · exact List.mem_cons_of_mem _ ((ih (v :: seen)).mpr
              ⟨h1', fun hs => (List.mem_cons.mp hs).elim hav h2⟩)

theorem mem_dedupKeepFirst {a : List Char} (l : List (List Char)) :
    a ∈ dedupKeepFirst l ↔ a ∈ l := by
  rw [dedupKeepFirst, mem_dedupKeepFirstAux]
  simp

theorem mem_get_tune_aliases (m : AliasMap) (t : List Char) : t ∈ get_tune_aliases m t := by
  cases h : lookupAlias m (pyStrip (t.map pyLower)) with
  | none => simp [get_tune_aliases, h]
  | some aliases =>
    by_cases hm : t ∈ aliases <;> simp [get_tune_aliases, h, hm]

/-- The directory and file of the C3 scenario. -/
def harvestDir : List Char := "/music".data

/-- The single audio file of the C3 scenario. -/
def harvestFile : List Char := "/music/05 - Harvest Home.mp3".data

/-- The C3 filesystem: one directory holding exactly one audio file. -/
def harvestFs (d : List Char) : List (List Char) :=
  if d = harvestDir then [harvestFile] else []

/-- C3: searching "The Harvest Home" at threshold 0.85 over a directory
whose only audio file is "05 - Harvest Home.mp3" returns exactly that one
file, with score 1 ≥ 0.85 — for ANY alias dataset: the track-number prefix
is stripped by the name extraction and the variation set always contains
the The-less form "Harvest Home", which matches the extracted name exactly. -/
theorem search_harvest_home_single_file (m : AliasMap) :
    search_local_files m harvestFs "The Harvest Home".data [harvestDir] true
        (mkRat 85 100) none = [(harvestFile, 1)] ∧
      (mkRat 85 100 : Rat) ≤ 1 := by
  refine ⟨?_, by decide⟩
  have hterm : "Harvest Home".data ∈ searchTermsOf m true "The Harvest Home".data := by
    rw [searchTermsOf, if_pos rfl, get_all_tune_variations]
    rw [mem_dedupKeepFirst]
    refine List.mem_append_right _ (List.mem_flatMap.mpr ⟨"The Harvest Home".data, ?_, ?_⟩)
    · exact mem_get_tune_aliases m _
    · decide
  have hsim : calculate_similarity "Harvest Home".data "Harvest Home".data = 1 := by decide
  have hb : bestScore (searchTermsOf m true "The Harvest Home".data) "Harvest Home".data
      (mkRat 85 100) = 1 := by
    refine le_antisymm (bestScore_le_one _ _ _) ?_
    have := sim_le_bestScore _ "Harvest Home".data (mkRat 85 100) hterm
    rwa [hsim] at this
  have hslf : slfMatches m harvestFs "The Harvest Home".data [harvestDir] true
      (mkRat 85 100) = [(harvestFile, 1)] := by
    have h1 : ([harvestDir] : List (List Char)).flatMap harvestFs = [harvestFile] := by decide
    have h2 : dedupKeepFirst [harvestFile] = [harvestFile] := by decide
    have h3 : extract_tune_name_from_path harvestFile = "Harvest Home".data := by decide
    rw [slfMatches, h1, h2]
    simp only [List.map_cons, List.map_nil, h3, List.filterMap_cons, List.filterMap_nil]
    rw [hb, if_pos (by decide : (mkRat 85 100 : Rat) ≤ 1)]
    rfl
  show pyTruncate none (pySortDescBy (fun p => p.2)
    (slfMatches m harvestFs "The Harvest Home".data [harvestDir] true (mkRat 85 100))) =
    [(harvestFile, 1)]
  rw [hslf]
  rfl

/-!  Sequential vs. parallel batch resolution (C4). -/

theorem dictLookup_nil {β : Type} (t : List Char) :
    dictLookup ([] : List (List Char × β)) t = none := rfl

theorem dictLookup_cons {β : Type} (p : List Char × β) (ps : List (List Char × β))
    (t : List Char) :
    dictLookup (p :: ps) t = if p.1 = t then some p.2 else dictLookup ps t := rfl

theorem dictLookup_dictAssign {β : Type} (d : List (List Char × β)) (kv : List Char × β)
    (t : List Char) :
    dictLookup (dictAssign d kv) t = if t = kv.1 then some kv.2 else dictLookup d t := by
  induction d with
  | nil =>
    rw [show dictAssign ([] : List (List Char × β)) kv = [kv] from rfl, dictLookup_cons,
      dictLookup_nil]
    by_cases h : kv.1 = t
    · rw [if_pos h, if_pos h.symm]
    · rw [if_neg h, if_neg (fun he => h he.symm)]
  | cons p ps ih =>
    rw [show dictAssign (p :: ps) kv =
      if p.1 = kv.1 then kv :: ps else p :: dictAssign ps kv from rfl]
    by_cases hp : p.1 = kv.1
    · rw [if_pos hp, dictLookup_cons, dictLookup_cons]
      by_cases hk : kv.1 = t
      · rw [if_pos hk, if_pos hk.symm]
      · rw [if_neg hk, if_neg (fun he => hk he.symm), if_neg (fun he : p.1 = t => hk (hp ▸ he))]
    · rw [if_neg hp, dictLookup_cons, dictLookup_cons, ih]
      by_cases hpt : p.1 = t
      · rw [if_pos hpt, if_neg (fun he : t = kv.1 => hp (hpt.trans he)), if_pos hpt]
      · rw [if_neg hpt]
        by_cases htk : t = kv.1
        · rw [if_pos htk, if_pos htk]
        · rw [if_neg htk, if_neg htk, if_neg hpt]

theorem dictLookup_foldl {β : Type} (g : List Char → β) :
    ∀ (l : List (List Char)) (acc : List (List Char × β)) (t : List Char),
      dictLookup (l.foldl (fun results tune => dictAssign results (tune, g tune)) acc) t =
        if t ∈ l then some (g t) else dictLookup acc t := by
  intro l
  induction l with
  | nil =>
    intro acc t
    simp
  | cons x xs ih =>
    intro acc t
    rw [List.foldl_cons, ih]
    by_cases hxs : t ∈ xs
    · rw [if_pos hxs, if_pos (List.mem_cons_of_mem _ hxs)]
    · rw [if_neg hxs, dictLookup_dictAssign]
      dsimp only
      by_cases hx : t = x
      · rw [if_pos hx, if_pos (by rw [hx]; exact List.mem_cons_self x xs), hx]
      · rw [if_neg hx, if_neg (fun h => (List.mem_cons.mp h).elim hx hxs)]

theorem find_tunes_for_set_lookup (m : AliasMap) (fs : List Char → List (List Char))
    (tunes : List (List Char)) (directories : List (List Char)) (use_aliases : Bool)
    (threshold : Rat) (overload : Option Nat) (t : List Char) :
    dictLookup (find_tunes_for_set m fs tunes directories use_aliases threshold overload) t =
      if t ∈ tunes then
        some ((search_local_files m fs t directories use_aliases threshold
          (some (overloadCap overload))).map (fun p => p.1))
      else none := by
  have h := dictLookup_foldl
    (fun tune => (search_local_files m fs tune directories use_aliases threshold
      (some (overloadCap overload))).map (fun p => p.1)) tunes [] t
  rw [dictLookup] at h
  exact h

theorem find_tunes_for_set_async_lookup (m : AliasMap) (fs : List Char → List (List Char))
    (directories : List (List Char)) (use_aliases : Bool) (threshold : Rat)
    (overload : Option Nat) (completionOrder : List (List Char)) (t : List Char) :
    dictLookup (find_tunes_for_set_async m fs directories use_aliases threshold overload
        completionOrder) t =
      if t ∈ completionOrder then
        some ((search_single_tune t (searchTermsOf m use_aliases t)
          ((dedupKeepFirst (directories.flatMap fs)).map
            (fun f => (f, extract_tune_name_from_path_cached f)))
          threshold (overloadCap overload)).2.map (fun p => p.1))
      else none := by
  have h := dictLookup_foldl
    (fun tune => (search_single_tune tune (searchTermsOf m use_aliases tune)
      ((dedupKeepFirst (directories.flatMap fs)).map
        (fun f => (f, extract_tune_name_from_path_cached f)))
      threshold (overloadCap overload)).2.map (fun p => p.1)) completionOrder [] t
  rw [dictLookup] at h
  exact h

/-- The cached extraction of the async module computes the same candidate
name as the sequential one. -/
theorem extract_cached_eq (p : List Char) :
    extract_tune_name_from_path_cached p = extract_tune_name_from_path p := rfl

/-- The async per-file scoring loop computes the same score as the
sequential one. -/
theorem bestScoreAsync_eq (terms : List (List Char)) (e : List Char) (θ : Rat) :
    bestScoreAsync terms e θ = bestScore terms e θ := rfl

/-- One async work unit produces exactly the sequential per-tune result:
`search_single_tune` over the shared pre-scanned candidate list computes
the same scored, deduplicated, sorted, capped match list as
`search_local_files` does when it rescans the same directories. -/
theorem search_single_tune_eq (m : AliasMap) (fs : List Char → List (List Char))
    (directories : List (List Char)) (use_aliases : Bool) (threshold : Rat) (cap : Nat)
    (t : List Char) :
    (search_single_tune t (searchTermsOf m use_aliases t)
      ((dedupKeepFirst (directories.flatMap fs)).map
        (fun f => (f, extract_tune_name_from_path_cached f)))
      threshold cap).2 =
    search_local_files m fs t directories use_aliases threshold (some cap) := by
  cases cap with
  | zero => rfl
  | succ n => rfl

/-- C4: for every tune list, directory set, alias dataset, threshold and
overload, the name→paths mapping of the sequential `find_tunes_for_set`
agrees pointwise with the mapping produced by the parallel path
(`find_tunes_for_set_async` running `search_single_tune` per tune over the
shared pre-scanned candidate list), whatever completion order the pool
produces. -/
theorem batch_seq_parallel_agree (m : AliasMap) (fs : List Char → List (List Char))
    (tunes : List (List Char)) (directories : List (List Char)) (use_aliases : Bool)
    (threshold : Rat) (overload : Option Nat) (completionOrder : List (List Char))
    (hperm : completionOrder.Perm tunes) (t : List Char) :
    dictLookup (find_tunes_for_set m fs tunes directories use_aliases threshold overload) t =
      dictLookup (find_tunes_for_set_async m fs directories use_aliases threshold overload
        completionOrder) t := by
  rw [find_tunes_for_set_lookup, find_tunes_for_set_async_lookup]
  by_cases ht : t ∈ tunes
  · rw [if_pos ht, if_pos (hperm.mem_iff.mpr ht), search_single_tune_eq]
  · rw [if_neg ht, if_neg (fun h => ht (hperm.mem_iff.mp h))]

/-- C4 (witness): on a concrete two-tune batch completed in reversed
order, the sequential and parallel mappings agree at both keys. -/
theorem batch_seq_parallel_agree_witness :
    dictLookup (find_tunes_for_set [] (fun _ => ["/m/ab.mp3".data]) ["ab".data, "cd".data]
        ["/m".data] false 0 none) "ab".data =
      dictLookup (find_tunes_for_set_async [] (fun _ => ["/m/ab.mp3".data]) ["/m".data]
        false 0 none ["cd".data, "ab".data]) "ab".data :=
  batch_seq_parallel_agree [] (fun _ => ["/m/ab.mp3".data]) ["ab".data, "cd".data]
    ["/m".data] false 0 none ["cd".data, "ab".data] (by decide) "ab".data

end SkronkSpec
